import Mathlib

/-!
Verification of the VAE hyperparameter-search trainer (`autoencoder.py`).

The development embeds the two numeric pieces of the objective
(`LogCoshVAE.loss`) over real-valued lists, and the `train` driver as a
state machine: an inner model of the 20000-step optimization loop
(score logging, score-sample recording, NaN abort) and an outer model of
the `while batch_size >= 1` retry loop with its `RuntimeError` handler
(step-index cutoff check, batch halving, penalty logging).  A separate
event-trace model captures the ordering of the per-step actions
(train/eval mode switches, probes, NaN check) for the frame-effect
claims.
-/

namespace MauaVAE

/-- Number of optimization steps per attempt (`num_iters = 20_000`). -/
def numIters : ℕ := 20000

/-- Penalty value logged as `Score` on fatal aborts (`27000`). -/
noncomputable def penalty : ℝ := 27000

/-- Step-index cutoff checked in the `RuntimeError` handler (`i > 10_000`). -/
def retryCutoff : ℕ := 10000

/-- Initial batch size of the retry loop (`batch_size = 512`). -/
def initialBatch : ℚ := 512

/-! ## The objective (`LogCoshVAE.loss`) -/

/-- Mean of a list of reals (`tensor.mean()`); mean of the empty list is `0/0 = 0`. -/
noncomputable def listMean (l : List ℝ) : ℝ := l.sum / l.length

/-- Per-element reconstruction expression
`alpha * t + log(1 + exp(-2 * alpha * t)) - log 2` for the residual `t`. -/
noncomputable def logCoshTerm (a t : ℝ) : ℝ :=
  a * t + Real.log (1 + Real.exp (-2 * a * t)) - Real.log 2

/-- Reconstruction term: `(1 / alpha) * mean` of the per-element expression
over the residual `t = fake - real`. -/
noncomputable def reconsLoss (a : ℝ) (real fake : List ℝ) : ℝ :=
  (1 / a) * listMean (List.zipWith (fun r f => logCoshTerm a (f - r)) real fake)

/-- Per-sample KL expression: `-0.5 * sum_over_latent_dims (1 + log_var - mu^2 - exp log_var)`. -/
noncomputable def kldRow (m lv : List ℝ) : ℝ :=
  -0.5 * (List.zipWith (fun mj lvj => 1 + lvj - mj ^ 2 - Real.exp lvj) m lv).sum

/-- KL term: mean over the batch of the per-sample KL expression. -/
noncomputable def kldLoss (mu logVar : List (List ℝ)) : ℝ :=
  listMean (List.zipWith kldRow mu logVar)

/-- The dictionary returned by `LogCoshVAE.loss`. -/
structure LossRecord where
  Total : ℝ
  Reconstruction : ℝ
  KullbackLeiblerDivergence : ℝ

/-- `LogCoshVAE.loss`: total objective, reconstruction term, and the
sign-flipped KL term it reports. -/
noncomputable def vaeLoss (alpha beta kldWeight : ℝ) (real fake : List ℝ)
    (mu logVar : List (List ℝ)) : LossRecord :=
  { Total := reconsLoss alpha real fake + beta * kldWeight * kldLoss mu logVar
    Reconstruction := reconsLoss alpha real fake
    KullbackLeiblerDivergence := -(kldLoss mu logVar) }

/-! ## The inner training loop (`for i in pbar`) -/

/-- Qualitative-probe schedule: `i % int(num_iters / 20) == 0 or i + 1 == num_iters`. -/
def qualB (i : ℕ) : Bool := (i % (numIters / 20) == 0) || (i + 1 == numIters)

/-- Quantitative-probe schedule: `i % int(num_iters / 10) == 0 or i + 1 == num_iters`. -/
def quantB (i : ℕ) : Bool := (i % (numIters / 10) == 0) || (i + 1 == numIters)

/-- A quantitative-probe step whose score is recorded (`i >= num_iters / 2`). -/
def recB (i : ℕ) : Bool := quantB i && decide (numIters / 2 ≤ i)

/-- Observable state of one attempt of the step loop: the `scores` list of
recorded samples, the sequence of values logged under the `Score` key, and
the number of steps executed. -/
structure InnerState where
  scores : List ℝ
  logs : List ℝ
  steps : ℕ

/-- Outcome of the step loop: aborted on a NaN loss, or ran to completion. -/
inductive InnerResult where
  | nanAbort (s : InnerState)
  | completed (s : InnerState)

/-- The score bookkeeping of one step `i`: on a quantitative-probe step the
score `sc i` is logged under `Score`, and additionally appended to `scores`
when `i >= num_iters / 2`. -/
def stepScores (sc : ℕ → ℝ) (i : ℕ) (s : InnerState) : InnerState :=
  let s1 : InnerState := { s with steps := s.steps + 1 }
  if quantB i then
    let s2 : InnerState := { s1 with logs := s1.logs ++ [sc i] }
    if numIters / 2 ≤ i then { s2 with scores := s2.scores ++ [sc i] } else s2
  else s1

/-- The step loop from step `i` with `fuel` steps remaining.  After each
step's bookkeeping the loss is tested for NaN; a NaN logs the penalty
score and aborts. -/
noncomputable def innerGo (nanAt : ℕ → Bool) (sc : ℕ → ℝ) : ℕ → ℕ → InnerState → InnerResult
  | _, 0, s => InnerResult.completed s
  | i, fuel + 1, s =>
    let s1 := stepScores sc i s
    if nanAt i then InnerResult.nanAbort { s1 with logs := s1.logs ++ [penalty] }
    else innerGo nanAt sc (i + 1) fuel s1

/-- One attempt of the training loop: `num_iters` steps from step `0`.
`nanAt i` tells whether step `i`'s loss is NaN; `sc i` is the score the
quantitative probe computes at step `i` (`FID + MSE * 5000`). -/
noncomputable def runAttempt (nanAt : ℕ → Bool) (sc : ℕ → ℝ) : InnerResult :=
  innerGo nanAt sc 0 numIters ⟨[], [], 0⟩

/-- The state carried by either outcome. -/
def stOf : InnerResult → InnerState
  | InnerResult.nanAbort s => s
  | InnerResult.completed s => s

/-- The recorded score samples of one attempt. -/
noncomputable def attemptScores (nanAt : ℕ → Bool) (sc : ℕ → ℝ) : List ℝ :=
  (stOf (runAttempt nanAt sc)).scores

/-- State of an attempt that ran steps `0 .. j-1` and was then interrupted
by a `RuntimeError` while executing step `j`. -/
noncomputable def interruptedState (sc : ℕ → ℝ) (j : ℕ) : InnerState :=
  stOf (innerGo (fun _ => false) sc 0 j ⟨[], [], 0⟩)

/-! ## Final score weighting (`np.sqrt(np.arange(1, len(scores) + 1))`) -/

/-- Raw weights `sqrt 1, sqrt 2, ..., sqrt n`. -/
noncomputable def rawWeights (n : ℕ) : List ℝ :=
  (List.range n).map (fun k : ℕ => Real.sqrt ((k : ℝ) + 1))

/-- Weights normalized to sum `1` (`weights /= sum(weights)`). -/
noncomputable def normWeights (n : ℕ) : List ℝ :=
  (rawWeights n).map (fun w => w / (rawWeights n).sum)

/-- `sum([w * v for w, v in zip(weights, scores)])`, folded left from `0`. -/
noncomputable def weightedScore (scores : List ℝ) : ℝ :=
  ((normWeights scores.length).zip scores).foldl (fun acc p => acc + p.1 * p.2) 0

/-! ## The outer retry loop (`while batch_size >= 1` with the handler) -/

/-- What the environment does to one attempt: it runs (NaN behavior given
by `nanAt`), raises a `RuntimeError` before the step loop starts, or
raises one while executing step `j`.  `isOOM` tells whether the error
message contains `CUDA out of memory`. -/
inductive AttemptScript where
  | runs (nanAt : ℕ → Bool)
  | raisesBefore (isOOM : Bool)
  | raisesAt (j : ℕ) (isOOM : Bool)

/-- How a run of `train` ended. -/
inductive RunEnd where
  | success
  | nanPenalty
  | oomPenalty
  | silentCutoff
  | silentOther
  | whileExit
  | fuelOut
deriving DecidableEq

/-- Accumulated observables of the retry loop: number of attempts started,
batch size at the start of each attempt, steps executed in each attempt,
and every value logged under `Score`, in order. -/
structure RunAcc where
  attempts : ℕ
  attemptBatches : List ℚ
  attemptSteps : List ℕ
  logs : List ℝ

/-- The observables of a finished run of `train`. -/
structure RunResult where
  attempts : ℕ
  attemptBatches : List ℚ
  attemptSteps : List ℕ
  logs : List ℝ
  endState : RunEnd

/-- Package an accumulator and a terminal state. -/
def mkResult (acc : RunAcc) (e : RunEnd) : RunResult :=
  ⟨acc.attempts, acc.attemptBatches, acc.attemptSteps, acc.logs, e⟩

/-- The retry loop.  `b` is the current batch size (halved as a Python
float, hence a rational), `i` the value of the step variable `i` (shared
across attempts, `none` until some attempt has entered its step loop).
The handler first checks `i > 10_000` and returns silently; only then does
the out-of-memory branch halve the batch size, logging the penalty and
stopping once it drops below `1`.  `fuel` bounds the recursion; reaching
`0` with the loop still live ends in the (unreachable) `fuelOut` state. -/
noncomputable def outerGo (scripts : ℕ → AttemptScript) (scoreAt : ℕ → ℕ → ℝ) :
    ℕ → ℚ → Option ℕ → RunAcc → RunResult
  | 0, b, _, acc =>
    if b < 1 then mkResult acc RunEnd.whileExit else mkResult acc RunEnd.fuelOut
  | fuel + 1, b, i, acc =>
    if b < 1 then mkResult acc RunEnd.whileExit
    else
      let a := acc.attempts
      let acc1 : RunAcc :=
        { acc with attempts := a + 1, attemptBatches := acc.attemptBatches ++ [b] }
      match scripts a with
      | AttemptScript.runs nanAt =>
        match innerGo nanAt (scoreAt a) 0 numIters ⟨[], [], 0⟩ with
        | InnerResult.nanAbort s =>
          mkResult { acc1 with attemptSteps := acc1.attemptSteps ++ [s.steps],
                               logs := acc1.logs ++ s.logs } RunEnd.nanPenalty
        | InnerResult.completed s =>
          mkResult { acc1 with attemptSteps := acc1.attemptSteps ++ [s.steps],
                               logs := acc1.logs ++ s.logs ++ [weightedScore s.scores] }
            RunEnd.success
      | AttemptScript.raisesBefore isOOM =>
        let acc2 : RunAcc := { acc1 with attemptSteps := acc1.attemptSteps ++ [0] }
        match i with
        | some jj =>
          if retryCutoff < jj then mkResult acc2 RunEnd.silentCutoff
          else if isOOM then
            if b / 2 < 1 then
              mkResult { acc2 with logs := acc2.logs ++ [penalty] } RunEnd.oomPenalty
            else outerGo scripts scoreAt fuel (b / 2) (some jj) acc2
          else mkResult acc2 RunEnd.silentOther
        | none =>
          if isOOM then
            if b / 2 < 1 then
              mkResult { acc2 with logs := acc2.logs ++ [penalty] } RunEnd.oomPenalty
            else outerGo scripts scoreAt fuel (b / 2) none acc2
          else mkResult acc2 RunEnd.silentOther
      | AttemptScript.raisesAt j isOOM =>
        let s := interruptedState (scoreAt a) j
        let acc2 : RunAcc := { acc1 with attemptSteps := acc1.attemptSteps ++ [j],
                                         logs := acc1.logs ++ s.logs }
        if retryCutoff < j then mkResult acc2 RunEnd.silentCutoff
        else if isOOM then
          if b / 2 < 1 then
            mkResult { acc2 with logs := acc2.logs ++ [penalty] } RunEnd.oomPenalty
          else outerGo scripts scoreAt fuel (b / 2) (some j) acc2
        else mkResult acc2 RunEnd.silentOther

/-- The `train` entry point: retry loop from batch size `512` with the
step variable not yet bound. -/
noncomputable def train (scripts : ℕ → AttemptScript) (scoreAt : ℕ → ℕ → ℝ) : RunResult :=
  outerGo scripts scoreAt 11 initialBatch none ⟨0, [], [], []⟩

/-- A script raising a memory-exhaustion error that the handler retries:
either before the step loop starts, or at a step not beyond the cutoff. -/
def oomRetry (s : AttemptScript) : Prop :=
  s = AttemptScript.raisesBefore true ∨
    ∃ j, j ≤ retryCutoff ∧ s = AttemptScript.raisesAt j true

/-- The step variable is either unbound or not beyond the cutoff. -/
def iOK : Option ℕ → Prop := fun o => ∀ j, o = some j → j ≤ retryCutoff

/-! ## Event-trace model of one step (modes and probes) -/

/-- The model's mode: `vae.train()` vs `vae.eval()`. -/
inductive Mode where
  | train
  | eval
deriving DecidableEq

/-- The observable actions of one step, each tagged with the mode the
model is in while it executes; probes also carry whether they run under
`th.no_grad()`. -/
inductive Ev where
  | setTrain (i : ℕ)
  | optimStep (i : ℕ) (m : Mode)
  | telemetry (i : ℕ) (m : Mode)
  | qualProbe (i : ℕ) (m : Mode) (ng : Bool)
  | quantProbe (i : ℕ) (m : Mode) (ng : Bool)
  | appendScore (i : ℕ) (m : Mode)
  | nanCheck (i : ℕ) (m : Mode)
  | nanExit (i : ℕ) (m : Mode)
deriving DecidableEq

/-- The mode the model is in after the probe section of step `i`: the
qualitative probe calls `vae.eval()` and nothing switches back within the
step. -/
def stepMode (i : ℕ) : Mode := if qualB i then Mode.eval else Mode.train

/-- The events of step `i` in program order: `vae.train()`, the
forward/backward/optimizer update, the scalar telemetry log, the
qualitative probe (under `no_grad`, after `vae.eval()`), the quantitative
probe (under `no_grad`) with the conditional score append, and finally the
NaN check, followed by the abort when the loss is NaN. -/
def stepEvents (i : ℕ) (nan : Bool) : List Ev :=
  [Ev.setTrain i, Ev.optimStep i Mode.train, Ev.telemetry i Mode.train]
    ++ (if qualB i then [Ev.qualProbe i Mode.eval true] else [])
    ++ (if quantB i then
          Ev.quantProbe i (stepMode i) true ::
            (if numIters / 2 ≤ i then [Ev.appendScore i (stepMode i)] else [])
        else [])
    ++ (Ev.nanCheck i (stepMode i) ::
          (if nan then [Ev.nanExit i (stepMode i)] else []))

/-- Event trace of the step loop from step `i` with `fuel` steps left. -/
def traceGo (nanAt : ℕ → Bool) : ℕ → ℕ → List Ev
  | _, 0 => []
  | i, fuel + 1 =>
    stepEvents i (nanAt i) ++ (if nanAt i then [] else traceGo nanAt (i + 1) fuel)

/-- Event trace of one attempt. -/
def attemptTrace (nanAt : ℕ → Bool) : List Ev := traceGo nanAt 0 numIters

/-- Probe events. -/
def isProbe : Ev → Bool
  | Ev.qualProbe _ _ _ => true
  | Ev.quantProbe _ _ _ => true
  | _ => false

/-- The mode an event executes in. -/
def evMode : Ev → Mode
  | Ev.setTrain _ => Mode.train
  | Ev.optimStep _ m => m
  | Ev.telemetry _ m => m
  | Ev.qualProbe _ m _ => m
  | Ev.quantProbe _ m _ => m
  | Ev.appendScore _ m => m
  | Ev.nanCheck _ m => m
  | Ev.nanExit _ m => m

/-- Non-probe events vacuously run under gradients as the step body does;
a probe satisfies this only if its `no_grad` flag is set. -/
def probeNoGrad : Ev → Bool
  | Ev.qualProbe _ _ ng => ng
  | Ev.quantProbe _ _ ng => ng
  | _ => true

/-- Adjacent-pair relation: whatever directly follows a probe runs in mode `m`. -/
def restoredTo (m : Mode) (a b : Ev) : Bool := !(isProbe a) || (evMode b == m)

/-- Executable check of the adjacent-pair relation over a trace. -/
def chainOK (m : Mode) : List Ev → Bool
  | [] => true
  | [_] => true
  | a :: b :: rest => restoredTo m a b && chainOK m (b :: rest)

/-! ## Concrete environments used in counterexamples and witnesses -/

/-- Environment whose quantitative probe always scores `0`. -/
noncomputable def zScore : ℕ → ℕ → ℝ := fun _ _ => 0

/-- Every attempt raises a memory-exhaustion error while executing step `15000`. -/
def oomAt15000 : ℕ → AttemptScript := fun _ => AttemptScript.raisesAt 15000 true

/-- Every attempt raises a memory-exhaustion error before its step loop starts. -/
def oomEveryTime : ℕ → AttemptScript := fun _ => AttemptScript.raisesBefore true

/-- A loss that is NaN at step `0`. -/
def nanAtZero : ℕ → Bool := fun i => i == 0

/-- A loss that is NaN at step `3` only. -/
def nanAtThree : ℕ → Bool := fun i => i == 3

/-- A loss that is never NaN. -/
def nanNever : ℕ → Bool := fun _ => false

/-- Scripts whose first attempt runs NaN-free to completion. -/
def cleanScripts : ℕ → AttemptScript := fun _ => AttemptScript.runs nanNever

/-- Scripts whose first attempt sees a NaN loss at step `3`. -/
def nanScripts : ℕ → AttemptScript := fun _ => AttemptScript.runs nanAtThree

/-! ## Lemmas: the objective -/

/-- The per-element reconstruction expression is an even function of the residual. -/
theorem logCoshTerm_even (a t : ℝ) : logCoshTerm a (-t) = logCoshTerm a t := by
  unfold logCoshTerm
  have hpos : (0 : ℝ) < 1 + Real.exp (-2 * a * t) := by positivity
  have hkey : (1 : ℝ) + Real.exp (-2 * a * -t)
      = Real.exp (2 * a * t) * (1 + Real.exp (-2 * a * t)) := by
    rw [mul_add, mul_one, ← Real.exp_add]
    rw [show 2 * a * t + -2 * a * t = (0 : ℝ) from by ring, Real.exp_zero]
    rw [show -2 * a * -t = 2 * a * t from by ring]
    ring
  rw [hkey, Real.log_mul (Real.exp_ne_zero _) (ne_of_gt hpos), Real.log_exp]
  ring

/-- Swapping the two inputs of the residual zip leaves the term list unchanged. -/
theorem zipWith_logCosh_comm (a : ℝ) :
    ∀ xs ys : List ℝ,
      List.zipWith (fun r f => logCoshTerm a (f - r)) xs ys
        = List.zipWith (fun r f => logCoshTerm a (f - r)) ys xs := by
  intro xs
  induction xs with
  | nil => intro ys; cases ys <;> simp
  | cons x xs ih =>
    intro ys
    cases ys with
    | nil => simp
    | cons y ys =>
      simp only [List.zipWith_cons_cons]
      rw [ih ys, show logCoshTerm a (y - x) = logCoshTerm a (x - y) from by
        rw [← neg_sub x y, logCoshTerm_even]]

/-- C7: for equal-shaped inputs and a fixed positive `alpha`, the
reconstruction term of `loss(real, fake, ...)` equals that of
`loss(fake, real, ...)`: the per-element expression is even in
`t = fake - real`. -/
theorem C7_recons_symmetric (alpha beta w : ℝ) (real fake : List ℝ)
    (mu logVar : List (List ℝ)) (halpha : 0 < alpha)
    (hlen : real.length = fake.length) :
    (vaeLoss alpha beta w real fake mu logVar).Reconstruction
      = (vaeLoss alpha beta w fake real mu logVar).Reconstruction := by
  simp only [vaeLoss, reconsLoss]
  rw [zipWith_logCosh_comm]

/-- Witness for C7 at `alpha = 1`, `real = [0, 1]`, `fake = [2, 3]`. -/
theorem C7_witness :
    0 < (1 : ℝ) ∧ ([(0 : ℝ), 1]).length = ([(2 : ℝ), 3]).length ∧
      (vaeLoss 1 0 0 [0, 1] [2, 3] [] []).Reconstruction
        = (vaeLoss 1 0 0 [2, 3] [0, 1] [] []).Reconstruction :=
  ⟨by norm_num, by simp,
    C7_recons_symmetric 1 0 0 [0, 1] [2, 3] [] [] (by norm_num) (by simp)⟩

/-- The per-sample KL sum vanishes on all-zero `mu` and `log_var` rows. -/
theorem kldSum_zero :
    ∀ m lv : List ℝ, (∀ x ∈ m, x = 0) → (∀ x ∈ lv, x = 0) →
      (List.zipWith (fun mj lvj => 1 + lvj - mj ^ 2 - Real.exp lvj) m lv).sum = 0 := by
  intro m
  induction m with
  | nil => intro lv _ _; simp
  | cons a as ih =>
    intro lv hm hl
    cases lv with
    | nil => simp
    | cons b bs =>
      have ha : a = 0 := hm a (by simp)
      have hb : b = 0 := hl b (by simp)
      have hrest := ih bs (fun x hx => hm x (by simp [hx])) (fun x hx => hl x (by simp [hx]))
      subst ha; subst hb
      simp only [List.zipWith_cons_cons, List.sum_cons, hrest, Real.exp_zero]
      norm_num

/-- The per-sample KL expression vanishes on all-zero rows. -/
theorem kldRow_zero (m lv : List ℝ) (hm : ∀ x ∈ m, x = 0) (hl : ∀ x ∈ lv, x = 0) :
    kldRow m lv = 0 := by
  unfold kldRow
  rw [kldSum_zero m lv hm hl, mul_zero]

/-- Every per-sample entry of the KL zip vanishes on all-zero batches. -/
theorem kldZip_zero :
    ∀ mu lv : List (List ℝ),
      (∀ row ∈ mu, ∀ x ∈ row, x = 0) → (∀ row ∈ lv, ∀ x ∈ row, x = 0) →
      ∀ y ∈ List.zipWith kldRow mu lv, y = 0 := by
  intro mu
  induction mu with
  | nil => intro lv _ _ y hy; simp at hy
  | cons m ms ih =>
    intro lv hmu hlv y hy
    cases lv with
    | nil => simp at hy
    | cons l ls =>
      simp only [List.zipWith_cons_cons, List.mem_cons] at hy
      rcases hy with rfl | hy
      · exact kldRow_zero m l (hmu m (by simp)) (hlv l (by simp))
      · exact ih ls (fun r hr => hmu r (by simp [hr])) (fun r hr => hlv r (by simp [hr])) y hy

/-- C8: with `mu = 0` and `log_var = 0` in all latent dimensions the KL
term `mean(-0.5 * sum(1 + log_var - mu^2 - exp log_var))` is exactly `0`,
and so is the KL value reported by the loss dictionary. -/
theorem C8_kld_zero (mu logVar : List (List ℝ))
    (hmu : ∀ row ∈ mu, ∀ x ∈ row, x = 0)
    (hlv : ∀ row ∈ logVar, ∀ x ∈ row, x = 0) :
    kldLoss mu logVar = 0 ∧
      ∀ (alpha beta w : ℝ) (real fake : List ℝ),
        (vaeLoss alpha beta w real fake mu logVar).KullbackLeiblerDivergence = 0 := by
  have hz : kldLoss mu logVar = 0 := by
    unfold kldLoss listMean
    rw [List.sum_eq_zero (kldZip_zero mu logVar hmu hlv), zero_div]
  exact ⟨hz, fun alpha beta w real fake => by simp [vaeLoss, hz]⟩

/-- Witness for C8 on the concrete batch `mu = [[0, 0]]`, `log_var = [[0, 0]]`. -/
theorem C8_witness :
    kldLoss [[(0 : ℝ), 0]] [[(0 : ℝ), 0]] = 0 ∧
      (vaeLoss 1 1 1 [] [] [[(0 : ℝ), 0]] [[(0 : ℝ), 0]]).KullbackLeiblerDivergence = 0 := by
  have h := C8_kld_zero [[(0 : ℝ), 0]] [[(0 : ℝ), 0]]
    (by intro row hrow x hx
        simp only [List.mem_singleton] at hrow
        subst hrow
        simpa using hx)
    (by intro row hrow x hx
        simp only [List.mem_singleton] at hrow
        subst hrow
        simpa using hx)
  exact ⟨h.1, h.2 1 1 1 [] []⟩

/-! ## Lemmas: the inner step loop -/

/-- Recorded steps are quantitative-probe steps. -/
theorem recB_quantB {i : ℕ} (h : recB i = true) : quantB i = true := by
  unfold recB at h
  simp only [Bool.and_eq_true, decide_eq_true_eq] at h
  exact h.1

/-- Field-level description of one step's score bookkeeping. -/
theorem stepScores_spec (sc : ℕ → ℝ) (i : ℕ) (s : InnerState) :
    stepScores sc i s =
      ⟨if recB i then s.scores ++ [sc i] else s.scores,
       if quantB i then s.logs ++ [sc i] else s.logs,
       s.steps + 1⟩ := by
  unfold stepScores recB
  by_cases hq : quantB i
  · by_cases hh : numIters / 2 ≤ i
    · simp [hq, hh]
    · simp [hq, hh]
  · simp [hq]

/-- A NaN-free stretch of the step loop runs to completion, logging the
scores of its quantitative-probe steps and recording those in the second
half. -/
theorem innerGo_completed (nanAt : ℕ → Bool) (sc : ℕ → ℝ) :
    ∀ (fuel start : ℕ) (s : InnerState),
      (∀ m, start ≤ m → m < start + fuel → nanAt m = false) →
      innerGo nanAt sc start fuel s =
        InnerResult.completed
          ⟨s.scores ++ ((List.range' start fuel).filter fun i => recB i).map sc,
           s.logs ++ ((List.range' start fuel).filter fun i => quantB i).map sc,
           s.steps + fuel⟩ := by
  intro fuel
  induction fuel with
  | zero => intro start s _; simp [innerGo]
  | succ fuel ih =>
    intro start s h
    have hstart : nanAt start = false := h start le_rfl (by omega)
    rw [show innerGo nanAt sc start (fuel + 1) s
        = innerGo nanAt sc (start + 1) fuel (stepScores sc start s) from by
      simp [innerGo, hstart]]
    rw [ih (start + 1) (stepScores sc start s) (fun m h1 h2 => h m (by omega) (by omega))]
    rw [stepScores_spec, List.range'_succ]
    by_cases hr : recB start
    · have hq : quantB start := recB_quantB hr
      simp [List.filter_cons, hr, hq, List.append_assoc]
      all_goals omega
    · by_cases hq : quantB start
      · simp [List.filter_cons, hr, hq, List.append_assoc]
        all_goals omega
      · simp [List.filter_cons, hr, hq]
        all_goals omega

/-- If the first NaN within the remaining steps is at step `j`, the loop
aborts at the end of step `j`, logging the penalty score last. -/
theorem innerGo_nanAbort (nanAt : ℕ → Bool) (sc : ℕ → ℝ) :
    ∀ (fuel start : ℕ) (s : InnerState) (j : ℕ),
      start ≤ j → j < start + fuel → nanAt j = true →
      (∀ m, start ≤ m → m < j → nanAt m = false) →
      innerGo nanAt sc start fuel s =
        InnerResult.nanAbort
          ⟨s.scores ++ ((List.range' start (j + 1 - start)).filter fun i => recB i).map sc,
           (s.logs ++ ((List.range' start (j + 1 - start)).filter fun i => quantB i).map sc)
             ++ [penalty],
           s.steps + (j + 1 - start)⟩ := by
  intro fuel
  induction fuel with
  | zero => intro start s j h1 h2; omega
  | succ fuel ih =>
    intro start s j h1 h2 hj hfirst
    rcases Nat.eq_or_lt_of_le h1 with rfl | hlt
    · rw [show innerGo nanAt sc start (fuel + 1) s
          = InnerResult.nanAbort
              { stepScores sc start s with
                  logs := (stepScores sc start s).logs ++ [penalty] } from by
        simp [innerGo, hj]]
      rw [stepScores_spec]
      have hr : start + 1 - start = 1 := by omega
      rw [hr]
      by_cases hrec : recB start
      · have hq : quantB start := recB_quantB hrec
        simp [List.range'_succ, List.filter_cons, hrec, hq]
      · by_cases hq : quantB start
        · simp [List.range'_succ, List.filter_cons, hrec, hq]
        · simp [List.range'_succ, List.filter_cons, hrec, hq]
    · have hstart : nanAt start = false := hfirst start le_rfl hlt
      rw [show innerGo nanAt sc start (fuel + 1) s
          = innerGo nanAt sc (start + 1) fuel (stepScores sc start s) from by
        simp [innerGo, hstart]]
      rw [ih (start + 1) (stepScores sc start s) j hlt (by omega) hj
        (fun m hm1 hm2 => hfirst m (by omega) hm2)]
      rw [stepScores_spec]
      have hsplit : j + 1 - start = (j + 1 - (start + 1)) + 1 := by omega
      rw [hsplit, List.range'_succ]
      by_cases hrec : recB start
      · have hq : quantB start := recB_quantB hrec
        simp [List.filter_cons, hrec, hq, List.append_assoc]
        all_goals omega
      · by_cases hq : quantB start
        · simp [List.filter_cons, hrec, hq, List.append_assoc]
          all_goals omega
        · simp [List.filter_cons, hrec, hq]
          all_goals omega

/-- The step loop executes at most `fuel` further steps. -/
theorem innerGo_steps_le (nanAt : ℕ → Bool) (sc : ℕ → ℝ) :
    ∀ (fuel start : ℕ) (s : InnerState),
      (stOf (innerGo nanAt sc start fuel s)).steps ≤ s.steps + fuel := by
  intro fuel
  induction fuel with
  | zero => intro start s; simp [innerGo, stOf]
  | succ fuel ih =>
    intro start s
    by_cases hn : nanAt start
    · rw [show innerGo nanAt sc start (fuel + 1) s
          = InnerResult.nanAbort
              { stepScores sc start s with
                  logs := (stepScores sc start s).logs ++ [penalty] } from by
        simp [innerGo, hn]]
      rw [stepScores_spec]
      simp [stOf]
      all_goals omega
    · rw [show innerGo nanAt sc start (fuel + 1) s
          = innerGo nanAt sc (start + 1) fuel (stepScores sc start s) from by
        simp [innerGo, hn]]
      calc (stOf (innerGo nanAt sc (start + 1) fuel (stepScores sc start s))).steps
          ≤ (stepScores sc start s).steps + fuel := ih (start + 1) (stepScores sc start s)
        _ ≤ s.steps + (fuel + 1) := by simp [stepScores_spec]; omega

/-- Splitting a contiguous range. -/
theorem range'_split (s m n : ℕ) :
    List.range' s (m + n) = List.range' s m ++ List.range' (s + m) n := by
  have h := List.range'_append s m n 1
  simp only [one_mul] at h
  rw [Nat.add_comm m n, ← h]

set_option maxRecDepth 40000 in
/-- Recorded steps in the first quarter of the schedule: none. -/
theorem recSteps_chunk1 : ((List.range' 0 5000).filter fun i => recB i) = [] := by decide

set_option maxRecDepth 40000 in
/-- Recorded steps in the second quarter of the schedule: none. -/
theorem recSteps_chunk2 : ((List.range' 5000 5000).filter fun i => recB i) = [] := by decide

set_option maxRecDepth 40000 in
/-- Recorded steps in the third quarter of the schedule. -/
theorem recSteps_chunk3 :
    ((List.range' 10000 5000).filter fun i => recB i) = [10000, 12000, 14000] := by decide

set_option maxRecDepth 40000 in
/-- Recorded steps in the last quarter of the schedule. -/
theorem recSteps_chunk4 :
    ((List.range' 15000 5000).filter fun i => recB i) = [16000, 18000, 19999] := by decide

/-- The recorded steps of a full attempt. -/
theorem recSteps_eval :
    ((List.range' 0 numIters).filter fun i => recB i)
      = [10000, 12000, 14000, 16000, 18000, 19999] := by
  show ((List.range' 0 20000).filter fun i => recB i) = _
  rw [show (20000 : ℕ) = 5000 + 15000 from by norm_num, range'_split,
    show (15000 : ℕ) = 5000 + 10000 from by norm_num, range'_split,
    show (10000 : ℕ) = 5000 + 5000 from by norm_num, range'_split]
  norm_num [List.filter_append, recSteps_chunk1, recSteps_chunk2, recSteps_chunk3,
    recSteps_chunk4]

/-- C9: an attempt that completes all `20000` steps without a NaN loss
collects exactly six score samples, at steps `10000`, `12000`, `14000`,
`16000`, `18000` and `19999`, in that order. -/
theorem C9_six_samples (nanAt : ℕ → Bool) (sc : ℕ → ℝ)
    (h : ∀ i, i < numIters → nanAt i = false) :
    attemptScores nanAt sc
        = [sc 10000, sc 12000, sc 14000, sc 16000, sc 18000, sc 19999] ∧
      (attemptScores nanAt sc).length = 6 := by
  have hrun := innerGo_completed nanAt sc numIters 0 ⟨[], [], 0⟩
    (fun m _ h2 => h m (by omega))
  unfold attemptScores runAttempt
  rw [hrun]
  simp [stOf, recSteps_eval]

/-- Witness for C9: a NaN-free attempt whose probe scores are the step index. -/
theorem C9_witness :
    attemptScores nanNever (fun i => (i : ℝ))
        = [((10000 : ℕ) : ℝ), ((12000 : ℕ) : ℝ), ((14000 : ℕ) : ℝ), ((16000 : ℕ) : ℝ),
           ((18000 : ℕ) : ℝ), ((19999 : ℕ) : ℝ)] ∧
      (attemptScores nanNever (fun i => (i : ℝ))).length = 6 :=
  C9_six_samples nanNever (fun i => (i : ℝ)) (fun _ _ => rfl)

/-! ## Lemmas: the final score weighting -/

/-- Sum of a list divided elementwise. -/
theorem sum_map_div (l : List ℝ) (c : ℝ) :
    (l.map fun x => x / c).sum = l.sum / c := by
  induction l with
  | nil => simp
  | cons a as ih => simp [ih, add_div]

/-- The raw square-root weights have positive sum once a score exists. -/
theorem rawWeights_sum_pos {n : ℕ} (hn : 1 ≤ n) : 0 < (rawWeights n).sum := by
  apply List.sum_pos
  · intro x hx
    unfold rawWeights at hx
    obtain ⟨k, _, rfl⟩ := List.mem_map.mp hx
    exact Real.sqrt_pos.mpr (by positivity)
  · unfold rawWeights
    simp only [ne_eq, List.map_eq_nil_iff, List.range_eq_nil]
    omega

/-- The normalized weights sum to `1`. -/
theorem normWeights_sum {n : ℕ} (hn : 1 ≤ n) : (normWeights n).sum = 1 := by
  unfold normWeights
  rw [sum_map_div, div_self (ne_of_gt (rawWeights_sum_pos hn))]

/-- The normalized weights are non-decreasing in the sample index. -/
theorem normWeights_pairwise (n : ℕ) : List.Pairwise (· ≤ ·) (normWeights n) := by
  rcases Nat.eq_zero_or_pos n with rfl | h
  · simp [normWeights, rawWeights]
  · have hpos := rawWeights_sum_pos h
    unfold normWeights
    rw [List.pairwise_map]
    unfold rawWeights at hpos ⊢
    rw [List.pairwise_map]
    apply (List.pairwise_lt_range n).imp
    intro a b hab
    exact (div_le_div_iff_of_pos_right hpos).mpr
      (Real.sqrt_le_sqrt (by
        have hc : (a : ℝ) ≤ b := Nat.cast_le.mpr hab.le
        linarith))

/-- A left fold of accumulated products is the sum of the products. -/
theorem foldl_add_mul (l : List (ℝ × ℝ)) :
    ∀ init : ℝ,
      l.foldl (fun acc p => acc + p.1 * p.2) init
        = init + (l.map fun p => p.1 * p.2).sum := by
  induction l with
  | nil => intro init; simp
  | cons p ps ih => intro init; simp [ih]; ring

/-- The final weighted score is the sum of weighted samples. -/
theorem weightedScore_eq_sum (scores : List ℝ) :
    weightedScore scores
      = (((normWeights scores.length).zip scores).map fun p => p.1 * p.2).sum := by
  unfold weightedScore
  rw [foldl_add_mul]
  simp

/-- The recorded samples of a NaN-free attempt, mapped through the probe. -/
theorem recMap_eval (sc : ℕ → ℝ) :
    ((List.range' 0 numIters).filter fun i => recB i).map sc
      = [sc 10000, sc 12000, sc 14000, sc 16000, sc 18000, sc 19999] := by
  rw [recSteps_eval]
  rfl

/-! ## Lemmas: one attempt of the outer loop -/

/-- Shape of one pass of the retry loop when the attempt runs its step loop. -/
theorem outerGo_runs (scripts : ℕ → AttemptScript) (scoreAt : ℕ → ℕ → ℝ)
    (fuel : ℕ) (b : ℚ) (i : Option ℕ) (acc : RunAcc) (nanAt : ℕ → Bool)
    (hb : ¬ b < 1) (hs : scripts acc.attempts = AttemptScript.runs nanAt) :
    outerGo scripts scoreAt (fuel + 1) b i acc =
      match innerGo nanAt (scoreAt acc.attempts) 0 numIters ⟨[], [], 0⟩ with
      | InnerResult.nanAbort s =>
        mkResult { attempts := acc.attempts + 1,
                   attemptBatches := acc.attemptBatches ++ [b],
                   attemptSteps := acc.attemptSteps ++ [s.steps],
                   logs := acc.logs ++ s.logs } RunEnd.nanPenalty
      | InnerResult.completed s =>
        mkResult { attempts := acc.attempts + 1,
                   attemptBatches := acc.attemptBatches ++ [b],
                   attemptSteps := acc.attemptSteps ++ [s.steps],
                   logs := acc.logs ++ s.logs ++ [weightedScore s.scores] }
          RunEnd.success := by
  simp only [outerGo, if_neg hb, hs]

/-- C4: on successful completion the reported final score is the convex
combination of exactly the score samples recorded at steps at or after
`num_iters / 2`, in recording order, weighted by `sqrt k` normalized to
sum `1`, with non-decreasing weights. -/
theorem C4_final_score (scripts : ℕ → AttemptScript) (scoreAt : ℕ → ℕ → ℝ)
    (nanAt : ℕ → Bool) (hs : scripts 0 = AttemptScript.runs nanAt)
    (h : ∀ i, i < numIters → nanAt i = false) :
    (train scripts scoreAt).endState = RunEnd.success ∧
    (train scripts scoreAt).logs.getLast? =
        some (weightedScore [scoreAt 0 10000, scoreAt 0 12000, scoreAt 0 14000,
          scoreAt 0 16000, scoreAt 0 18000, scoreAt 0 19999]) ∧
    [scoreAt 0 10000, scoreAt 0 12000, scoreAt 0 14000, scoreAt 0 16000, scoreAt 0 18000,
        scoreAt 0 19999]
      = ((List.range' 0 numIters).filter fun i => recB i).map (scoreAt 0) ∧
    weightedScore [scoreAt 0 10000, scoreAt 0 12000, scoreAt 0 14000, scoreAt 0 16000,
        scoreAt 0 18000, scoreAt 0 19999]
      = (((normWeights 6).zip [scoreAt 0 10000, scoreAt 0 12000, scoreAt 0 14000,
          scoreAt 0 16000, scoreAt 0 18000, scoreAt 0 19999]).map fun p => p.1 * p.2).sum ∧
    (normWeights 6).sum = 1 ∧
    List.Pairwise (· ≤ ·) (normWeights 6) := by
  have hinner := innerGo_completed nanAt (scoreAt 0) numIters 0 ⟨[], [], 0⟩
    (fun m _ h2 => h m (by omega))
  unfold train
  rw [show (11 : ℕ) = 10 + 1 from rfl]
  rw [outerGo_runs scripts scoreAt 10 initialBatch none ⟨0, [], [], []⟩ nanAt
    (by norm_num [initialBatch]) hs]
  rw [hinner]
  refine ⟨rfl, ?_, (recMap_eval (scoreAt 0)).symm, weightedScore_eq_sum _,
    normWeights_sum (by norm_num), normWeights_pairwise 6⟩
  simp only [mkResult, List.nil_append]
  rw [List.getLast?_concat, recMap_eval]

/-- Witness for C4: a clean run with all probe scores `0`. -/
theorem C4_witness :
    (train cleanScripts zScore).endState = RunEnd.success ∧ (normWeights 6).sum = 1 ∧
      List.Pairwise (· ≤ ·) (normWeights 6) :=
  ⟨(C4_final_score cleanScripts zScore nanNever rfl (fun _ _ => rfl)).1,
   (C4_final_score cleanScripts zScore nanNever rfl (fun _ _ => rfl)).2.2.2.2.1,
   (C4_final_score cleanScripts zScore nanNever rfl (fun _ _ => rfl)).2.2.2.2.2⟩

/-- C3: a NaN loss at step `j` of the first attempt makes the run log the
penalty score `27000` as its terminal score and stop: one attempt, `j + 1`
steps in total, nothing after step `j`. -/
theorem C3_nan_terminal (scripts : ℕ → AttemptScript) (scoreAt : ℕ → ℕ → ℝ)
    (nanAt : ℕ → Bool) (j : ℕ)
    (hs : scripts 0 = AttemptScript.runs nanAt)
    (hj : j < numIters) (hnan : nanAt j = true)
    (hfirst : ∀ m, m < j → nanAt m = false) :
    (train scripts scoreAt).logs.getLast? = some (27000 : ℝ) ∧
      (train scripts scoreAt).endState = RunEnd.nanPenalty ∧
      (train scripts scoreAt).attempts = 1 ∧
      (train scripts scoreAt).attemptSteps = [j + 1] := by
  have hinner := innerGo_nanAbort nanAt (scoreAt 0) numIters 0 ⟨[], [], 0⟩ j
    (Nat.zero_le j) (by omega) hnan (fun m _ hm2 => hfirst m hm2)
  unfold train
  rw [show (11 : ℕ) = 10 + 1 from rfl]
  rw [outerGo_runs scripts scoreAt 10 initialBatch none ⟨0, [], [], []⟩ nanAt
    (by norm_num [initialBatch]) hs]
  rw [hinner]
  refine ⟨?_, rfl, rfl, ?_⟩
  · simp only [mkResult, List.nil_append]
    rw [List.getLast?_concat]
    simp [penalty]
  · simp only [mkResult, List.nil_append]
    simp

/-- Witness for C3: NaN at step `3`, zero probe scores. -/
theorem C3_witness :
    (train nanScripts zScore).logs.getLast? = some (27000 : ℝ) ∧
      (train nanScripts zScore).attemptSteps = [4] :=
  ⟨(C3_nan_terminal nanScripts zScore nanAtThree 3 rfl (by norm_num [numIters]) rfl
      (by decide)).1,
   (C3_nan_terminal nanScripts zScore nanAtThree 3 rfl (by norm_num [numIters]) rfl
      (by decide)).2.2.2⟩

/-- Shape of one pass of the retry loop when the attempt raises while
executing step `j`: the step variable is rebound to `j` before the handler
runs, so the cutoff check sees `j`. -/
theorem outerGo_raisesAt (scripts : ℕ → AttemptScript) (scoreAt : ℕ → ℕ → ℝ)
    (fuel : ℕ) (b : ℚ) (i : Option ℕ) (acc : RunAcc) (j : ℕ) (isOOM : Bool)
    (hb : ¬ b < 1) (hs : scripts acc.attempts = AttemptScript.raisesAt j isOOM) :
    outerGo scripts scoreAt (fuel + 1) b i acc =
      (if retryCutoff < j then
        mkResult { attempts := acc.attempts + 1,
                   attemptBatches := acc.attemptBatches ++ [b],
                   attemptSteps := acc.attemptSteps ++ [j],
                   logs := acc.logs ++ (interruptedState (scoreAt acc.attempts) j).logs }
          RunEnd.silentCutoff
      else if isOOM then
        if b / 2 < 1 then
          mkResult { attempts := acc.attempts + 1,
                     attemptBatches := acc.attemptBatches ++ [b],
                     attemptSteps := acc.attemptSteps ++ [j],
                     logs := (acc.logs ++ (interruptedState (scoreAt acc.attempts) j).logs)
                       ++ [penalty] } RunEnd.oomPenalty
        else
          outerGo scripts scoreAt fuel (b / 2) (some j)
            { attempts := acc.attempts + 1,
              attemptBatches := acc.attemptBatches ++ [b],
              attemptSteps := acc.attemptSteps ++ [j],
              logs := acc.logs ++ (interruptedState (scoreAt acc.attempts) j).logs }
      else
        mkResult { attempts := acc.attempts + 1,
                   attemptBatches := acc.attemptBatches ++ [b],
                   attemptSteps := acc.attemptSteps ++ [j],
                   logs := acc.logs ++ (interruptedState (scoreAt acc.attempts) j).logs }
          RunEnd.silentOther) := by
  simp only [outerGo, if_neg hb, hs]

/-- Shape of one pass of the retry loop when the attempt raises before its
step loop starts: the step variable keeps its previous value. -/
theorem outerGo_raisesBefore (scripts : ℕ → AttemptScript) (scoreAt : ℕ → ℕ → ℝ)
    (fuel : ℕ) (b : ℚ) (i : Option ℕ) (acc : RunAcc) (isOOM : Bool)
    (hb : ¬ b < 1) (hs : scripts acc.attempts = AttemptScript.raisesBefore isOOM) :
    outerGo scripts scoreAt (fuel + 1) b i acc =
      (let acc2 : RunAcc :=
        { attempts := acc.attempts + 1,
          attemptBatches := acc.attemptBatches ++ [b],
          attemptSteps := acc.attemptSteps ++ [0],
          logs := acc.logs }
      match i with
      | some jj =>
        if retryCutoff < jj then mkResult acc2 RunEnd.silentCutoff
        else if isOOM then
          if b / 2 < 1 then
            mkResult { acc2 with logs := acc2.logs ++ [penalty] } RunEnd.oomPenalty
          else outerGo scripts scoreAt fuel (b / 2) (some jj) acc2
        else mkResult acc2 RunEnd.silentOther
      | none =>
        if isOOM then
          if b / 2 < 1 then
            mkResult { acc2 with logs := acc2.logs ++ [penalty] } RunEnd.oomPenalty
          else outerGo scripts scoreAt fuel (b / 2) none acc2
        else mkResult acc2 RunEnd.silentOther) := by
  simp only [outerGo, if_neg hb, hs]

/-- The state of an interrupted attempt: the probe logs and recorded
samples of the completed steps `0 .. j-1`. -/
theorem interruptedState_eval (sc : ℕ → ℝ) (j : ℕ) :
    interruptedState sc j =
      ⟨((List.range' 0 j).filter fun i => recB i).map sc,
       ((List.range' 0 j).filter fun i => quantB i).map sc, j⟩ := by
  unfold interruptedState
  rw [innerGo_completed (fun _ => false) sc j 0 ⟨[], [], 0⟩ (fun _ _ _ => rfl)]
  simp [stOf]

set_option maxRecDepth 40000 in
/-- Quantitative-probe steps in `[0, 5000)`. -/
theorem quantSteps_chunk1 :
    ((List.range' 0 5000).filter fun i => quantB i) = [0, 2000, 4000] := by decide

set_option maxRecDepth 40000 in
/-- Quantitative-probe steps in `[5000, 10000)`. -/
theorem quantSteps_chunk2 :
    ((List.range' 5000 5000).filter fun i => quantB i) = [6000, 8000] := by decide

set_option maxRecDepth 40000 in
/-- Quantitative-probe steps in `[10000, 15000)`. -/
theorem quantSteps_chunk3 :
    ((List.range' 10000 5000).filter fun i => quantB i) = [10000, 12000, 14000] := by decide

/-- Quantitative-probe steps among the first `15000` steps. -/
theorem quantSteps15000 :
    ((List.range' 0 15000).filter fun i => quantB i)
      = [0, 2000, 4000, 6000, 8000, 10000, 12000, 14000] := by
  rw [show (15000 : ℕ) = 5000 + 10000 from by norm_num, range'_split,
    show (10000 : ℕ) = 5000 + 5000 from by norm_num, range'_split]
  norm_num [List.filter_append, quantSteps_chunk1, quantSteps_chunk2, quantSteps_chunk3]

/-- C1 (amended): a memory-exhaustion failure raised after the current
attempt's step index exceeds the `10000`-step cutoff makes `train` return
silently: no retry is attempted, and no score at all (in particular not
the penalty `27000`) is reported by the handler; the run's `Score` log
ends with the probe scores already emitted. -/
theorem C1_cutoff_silent (scripts : ℕ → AttemptScript) (scoreAt : ℕ → ℕ → ℝ)
    (j : ℕ) (isOOM : Bool) (hs : scripts 0 = AttemptScript.raisesAt j isOOM)
    (hj : retryCutoff < j) :
    (train scripts scoreAt).endState = RunEnd.silentCutoff ∧
      (train scripts scoreAt).attempts = 1 ∧
      (train scripts scoreAt).logs
        = ((List.range' 0 j).filter fun i => quantB i).map (scoreAt 0) := by
  unfold train
  rw [show (11 : ℕ) = 10 + 1 from rfl]
  rw [outerGo_raisesAt scripts scoreAt 10 initialBatch none ⟨0, [], [], []⟩ j isOOM
    (by norm_num [initialBatch]) hs]
  rw [if_pos hj]
  refine ⟨rfl, rfl, ?_⟩
  rw [interruptedState_eval]
  simp [mkResult]

/-- Witness for C1 (amended): an out-of-memory failure at step `15000`. -/
theorem C1_witness :
    (train oomAt15000 zScore).endState = RunEnd.silentCutoff ∧
      (train oomAt15000 zScore).attempts = 1 :=
  ⟨(C1_cutoff_silent oomAt15000 zScore 15000 true rfl (by norm_num [retryCutoff])).1,
   (C1_cutoff_silent oomAt15000 zScore 15000 true rfl (by norm_num [retryCutoff])).2.1⟩

/-- Counterexample to C1 as stated: with a memory-exhaustion failure at
step `15000` (beyond the cutoff) the run indeed does not retry, but it
reports no score at all, `27000` never appears in the `Score` log, and the
terminal logged score is the last probe score, not the penalty. -/
theorem C1_counterexample :
    (train oomAt15000 zScore).endState = RunEnd.silentCutoff ∧
      (train oomAt15000 zScore).attempts = 1 ∧
      (27000 : ℝ) ∉ (train oomAt15000 zScore).logs ∧
      (train oomAt15000 zScore).logs.getLast? ≠ some (27000 : ℝ) := by
  have hlogs : (train oomAt15000 zScore).logs
      = ((List.range' 0 15000).filter fun i => quantB i).map (zScore 0) := by
    unfold train
    rw [show (11 : ℕ) = 10 + 1 from rfl]
    rw [outerGo_raisesAt oomAt15000 zScore 10 initialBatch none ⟨0, [], [], []⟩ 15000 true
      (by norm_num [initialBatch]) rfl]
    rw [if_pos (by norm_num [retryCutoff])]
    rw [interruptedState_eval]
    simp [mkResult]
  have hend : (train oomAt15000 zScore).endState = RunEnd.silentCutoff := by
    unfold train
    rw [show (11 : ℕ) = 10 + 1 from rfl]
    rw [outerGo_raisesAt oomAt15000 zScore 10 initialBatch none ⟨0, [], [], []⟩ 15000 true
      (by norm_num [initialBatch]) rfl]
    rw [if_pos (by norm_num [retryCutoff])]
    rfl
  have hatt : (train oomAt15000 zScore).attempts = 1 := by
    unfold train
    rw [show (11 : ℕ) = 10 + 1 from rfl]
    rw [outerGo_raisesAt oomAt15000 zScore 10 initialBatch none ⟨0, [], [], []⟩ 15000 true
      (by norm_num [initialBatch]) rfl]
    rw [if_pos (by norm_num [retryCutoff])]
    rfl
  rw [hlogs, quantSteps15000]
  refine ⟨hend, hatt, ?_, ?_⟩
  · simp [zScore]
  · simp [zScore]

/-- Unfolding the halving chain of batch sizes by one step. -/
theorem halfChain_map (b : ℚ) (k : ℕ) :
    b :: (List.range k).map (fun m => b / 2 / 2 ^ m)
      = (List.range (k + 1)).map (fun m => b / 2 ^ m) := by
  rw [List.range_succ_eq_map, List.map_cons, List.map_map]
  congr 1
  · rw [pow_zero, div_one]
  · congr 1
    funext m
    show b / 2 / 2 ^ m = b / 2 ^ (m + 1)
    rw [div_div]
    ring

/-- The retry loop only ever appends to the recorded batch sizes. -/
theorem outerGo_batches_extend (scripts : ℕ → AttemptScript) (scoreAt : ℕ → ℕ → ℝ) :
    ∀ (fuel : ℕ) (b : ℚ) (i : Option ℕ) (acc : RunAcc),
      ∃ t, (outerGo scripts scoreAt fuel b i acc).attemptBatches
        = acc.attemptBatches ++ t := by
  intro fuel
  induction fuel with
  | zero =>
    intro b i acc
    refine ⟨[], ?_⟩
    simp only [outerGo]
    split_ifs <;> simp [mkResult]
  | succ fuel ih =>
    intro b i acc
    by_cases hb : b < 1
    · refine ⟨[], ?_⟩
      rw [show outerGo scripts scoreAt (fuel + 1) b i acc
          = mkResult acc RunEnd.whileExit from by simp [outerGo, hb]]
      simp [mkResult]
    · cases hscr : scripts acc.attempts with
      | runs nanAt =>
        rw [outerGo_runs scripts scoreAt fuel b i acc nanAt hb hscr]
        cases innerGo nanAt (scoreAt acc.attempts) 0 numIters ⟨[], [], 0⟩ with
        | nanAbort s => exact ⟨[b], rfl⟩
        | completed s => exact ⟨[b], rfl⟩
      | raisesBefore isOOM =>
        rw [outerGo_raisesBefore scripts scoreAt fuel b i acc isOOM hb hscr]
        cases i with
        | none =>
          by_cases ho : isOOM
          · by_cases hh : b / 2 < 1
            · exact ⟨[b], by simp [ho, hh, mkResult]⟩
            · obtain ⟨t, ht⟩ := ih (b / 2) none
                { attempts := acc.attempts + 1,
                  attemptBatches := acc.attemptBatches ++ [b],
                  attemptSteps := acc.attemptSteps ++ [0], logs := acc.logs }
              refine ⟨[b] ++ t, ?_⟩
              simp only [ho, hh, if_true, if_false, if_neg hh]
              rw [ht]
              simp [List.append_assoc]
          · exact ⟨[b], by simp [ho, mkResult]⟩
        | some jj =>
          by_cases hc : retryCutoff < jj
          · exact ⟨[b], by simp [hc, mkResult]⟩
          · by_cases ho : isOOM
            · by_cases hh : b / 2 < 1
              · exact ⟨[b], by simp [hc, ho, hh, mkResult]⟩
              · obtain ⟨t, ht⟩ := ih (b / 2) (some jj)
                  { attempts := acc.attempts + 1,
                    attemptBatches := acc.attemptBatches ++ [b],
                    attemptSteps := acc.attemptSteps ++ [0], logs := acc.logs }
                refine ⟨[b] ++ t, ?_⟩
                simp only [hc, ho, hh, if_true, if_false, if_neg hh, if_neg hc]
                rw [ht]
                simp [List.append_assoc]
            · exact ⟨[b], by simp [hc, ho, mkResult]⟩
      | raisesAt j isOOM =>
        rw [outerGo_raisesAt scripts scoreAt fuel b i acc j isOOM hb hscr]
        by_cases hc : retryCutoff < j
        · exact ⟨[b], by simp [hc, mkResult]⟩
        · by_cases ho : isOOM
          · by_cases hh : b / 2 < 1
            · exact ⟨[b], by simp [hc, ho, hh, mkResult]⟩
            · obtain ⟨t, ht⟩ := ih (b / 2) (some j)
                { attempts := acc.attempts + 1,
                  attemptBatches := acc.attemptBatches ++ [b],
                  attemptSteps := acc.attemptSteps ++ [j],
                  logs := acc.logs ++ (interruptedState (scoreAt acc.attempts) j).logs }
              refine ⟨[b] ++ t, ?_⟩
              simp only [hc, ho, hh, if_true, if_false, if_neg hh, if_neg hc]
              rw [ht]
              simp [List.append_assoc]
          · exact ⟨[b], by simp [hc, ho, mkResult]⟩

/-- Under `k` consecutive retryable memory-exhaustion failures the retry
loop halves its way down: the run continues from batch `b / 2 ^ k`, having
recorded the `k` halved batch sizes and made `k` more attempts. -/
theorem outerGo_oomChain (scripts : ℕ → AttemptScript) (scoreAt : ℕ → ℕ → ℝ) :
    ∀ (k fuel : ℕ) (b : ℚ) (i : Option ℕ) (acc : RunAcc),
      (∀ a, a < k → oomRetry (scripts (acc.attempts + a))) →
      iOK i → (2 : ℚ) ^ k ≤ b → k ≤ fuel →
      ∃ (i2 : Option ℕ) (steps2 : List ℕ) (logs2 : List ℝ),
        iOK i2 ∧
          outerGo scripts scoreAt fuel b i acc =
            outerGo scripts scoreAt (fuel - k) (b / 2 ^ k) i2
              ⟨acc.attempts + k,
               acc.attemptBatches ++ (List.range k).map (fun m => b / 2 ^ m),
               acc.attemptSteps ++ steps2,
               acc.logs ++ logs2⟩ := by
  intro k
  induction k with
  | zero =>
    intro fuel b i acc _ hi _ _
    exact ⟨i, [], [], hi, by simp⟩
  | succ k ih =>
    intro fuel b i acc hscripts hi hb hk
    obtain ⟨fuel1, rfl⟩ : ∃ f, fuel = f + 1 := ⟨fuel - 1, by omega⟩
    have hpk : (1 : ℚ) ≤ 2 ^ k := one_le_pow₀ (by norm_num)
    have hpow : (2 : ℚ) ^ (k + 1) = 2 * 2 ^ k := by ring
    have hb1 : ¬ b < 1 := by rw [hpow] at hb; nlinarith
    have hhalf : ¬ b / 2 < 1 := by rw [hpow] at hb; nlinarith
    have hb2 : (2 : ℚ) ^ k ≤ b / 2 := by rw [hpow] at hb; nlinarith
    have hscripts1 : ∀ a, a < k → oomRetry (scripts (acc.attempts + 1 + a)) := by
      intro a ha
      rw [show acc.attempts + 1 + a = acc.attempts + (a + 1) from by omega]
      exact hscripts (a + 1) (by omega)
    have hfuelEq : fuel1 + 1 - (k + 1) = fuel1 - k := by omega
    have hbatchEq : b / 2 ^ (k + 1) = b / 2 / 2 ^ k := by rw [div_div]; ring
    have hbatchesEq : ∀ t : List ℚ,
        t ++ (List.range (k + 1)).map (fun m => b / 2 ^ m)
          = (t ++ [b]) ++ (List.range k).map (fun m => b / 2 / 2 ^ m) := by
      intro t
      rw [List.append_assoc, ← halfChain_map]
      rfl
    rcases hscripts 0 (by omega) with hsb | ⟨j, hj, hsa⟩
    · rw [Nat.add_zero] at hsb
      rw [outerGo_raisesBefore scripts scoreAt fuel1 b i acc true hb1 hsb]
      cases i with
      | none =>
        simp only [if_true, if_neg hhalf]
        obtain ⟨i2, s2, l2, hi2, heq⟩ := ih fuel1 (b / 2) none
          { attempts := acc.attempts + 1, attemptBatches := acc.attemptBatches ++ [b],
            attemptSteps := acc.attemptSteps ++ [0], logs := acc.logs }
          hscripts1 (fun j h => nomatch h) hb2 (by omega)
        refine ⟨i2, [0] ++ s2, l2, hi2, ?_⟩
        rw [heq, hfuelEq, hbatchEq, hbatchesEq]
        rw [show acc.attempts + (k + 1) = acc.attempts + 1 + k from by omega]
        rw [show acc.attemptSteps ++ ([0] ++ s2) = (acc.attemptSteps ++ [0]) ++ s2 from
          (List.append_assoc _ _ _).symm]
      | some jj =>
        have hjj : jj ≤ retryCutoff := hi jj rfl
        simp only [if_neg (show ¬ retryCutoff < jj from by omega), if_true, if_neg hhalf]
        obtain ⟨i2, s2, l2, hi2, heq⟩ := ih fuel1 (b / 2) (some jj)
          { attempts := acc.attempts + 1, attemptBatches := acc.attemptBatches ++ [b],
            attemptSteps := acc.attemptSteps ++ [0], logs := acc.logs }
          hscripts1 hi hb2 (by omega)
        refine ⟨i2, [0] ++ s2, l2, hi2, ?_⟩
        rw [heq, hfuelEq, hbatchEq, hbatchesEq]
        rw [show acc.attempts + (k + 1) = acc.attempts + 1 + k from by omega]
        rw [show acc.attemptSteps ++ ([0] ++ s2) = (acc.attemptSteps ++ [0]) ++ s2 from
          (List.append_assoc _ _ _).symm]
    · rw [Nat.add_zero] at hsa
      rw [outerGo_raisesAt scripts scoreAt fuel1 b i acc j true hb1 hsa]
      simp only [if_neg (show ¬ retryCutoff < j from by omega), if_true, if_neg hhalf]
      obtain ⟨i2, s2, l2, hi2, heq⟩ := ih fuel1 (b / 2) (some j)
        { attempts := acc.attempts + 1, attemptBatches := acc.attemptBatches ++ [b],
          attemptSteps := acc.attemptSteps ++ [j],
          logs := acc.logs ++ (interruptedState (scoreAt acc.attempts) j).logs }
        hscripts1 (fun j' hj' => by
          simp only [Option.some.injEq] at hj'
          omega) hb2 (by omega)
      refine ⟨i2, [j] ++ s2, (interruptedState (scoreAt acc.attempts) j).logs ++ l2, hi2, ?_⟩
      rw [heq, hfuelEq, hbatchEq, hbatchesEq]
      rw [show acc.attempts + (k + 1) = acc.attempts + 1 + k from by omega]
      rw [show acc.attemptSteps ++ ([j] ++ s2) = (acc.attemptSteps ++ [j]) ++ s2 from
        (List.append_assoc _ _ _).symm]
      rw [show acc.logs ++ ((interruptedState (scoreAt acc.attempts) j).logs ++ l2)
          = (acc.logs ++ (interruptedState (scoreAt acc.attempts) j).logs) ++ l2 from
        (List.append_assoc _ _ _).symm]

/-- A live pass of the retry loop records its starting batch size next. -/
theorem outerGo_batches_head (scripts : ℕ → AttemptScript) (scoreAt : ℕ → ℕ → ℝ)
    (fuel : ℕ) (b : ℚ) (i : Option ℕ) (acc : RunAcc) (hb : ¬ b < 1) :
    ∃ t, (outerGo scripts scoreAt (fuel + 1) b i acc).attemptBatches
      = acc.attemptBatches ++ [b] ++ t := by
  cases hscr : scripts acc.attempts with
  | runs nanAt =>
    rw [outerGo_runs scripts scoreAt fuel b i acc nanAt hb hscr]
    cases innerGo nanAt (scoreAt acc.attempts) 0 numIters ⟨[], [], 0⟩ with
    | nanAbort s => exact ⟨[], by simp [mkResult]⟩
    | completed s => exact ⟨[], by simp [mkResult]⟩
  | raisesBefore isOOM =>
    rw [outerGo_raisesBefore scripts scoreAt fuel b i acc isOOM hb hscr]
    cases i with
    | none =>
      by_cases ho : isOOM
      · by_cases hh : b / 2 < 1
        · exact ⟨[], by simp [ho, hh, mkResult]⟩
        · obtain ⟨t, ht⟩ := outerGo_batches_extend scripts scoreAt fuel (b / 2) none
            { attempts := acc.attempts + 1, attemptBatches := acc.attemptBatches ++ [b],
              attemptSteps := acc.attemptSteps ++ [0], logs := acc.logs }
          exact ⟨t, by simp only [ho, hh, if_true, if_false, if_neg hh]; rw [ht]⟩
      · exact ⟨[], by simp [ho, mkResult]⟩
    | some jj =>
      by_cases hc : retryCutoff < jj
      · exact ⟨[], by simp [hc, mkResult]⟩
      · by_cases ho : isOOM
        · by_cases hh : b / 2 < 1
          · exact ⟨[], by simp [hc, ho, hh, mkResult]⟩
          · obtain ⟨t, ht⟩ := outerGo_batches_extend scripts scoreAt fuel (b / 2) (some jj)
              { attempts := acc.attempts + 1,
                attemptBatches := acc.attemptBatches ++ [b],
                attemptSteps := acc.attemptSteps ++ [0], logs := acc.logs }
            exact ⟨t, by simp only [hc, ho, hh, if_true, if_false, if_neg hh, if_neg hc]; rw [ht]⟩
        · exact ⟨[], by simp [hc, ho, mkResult]⟩
  | raisesAt j isOOM =>
    rw [outerGo_raisesAt scripts scoreAt fuel b i acc j isOOM hb hscr]
    by_cases hc : retryCutoff < j
    · exact ⟨[], by simp [hc, mkResult]⟩
    · by_cases ho : isOOM
      · by_cases hh : b / 2 < 1
        · exact ⟨[], by simp [hc, ho, hh, mkResult]⟩
        · obtain ⟨t, ht⟩ := outerGo_batches_extend scripts scoreAt fuel (b / 2) (some j)
            { attempts := acc.attempts + 1, attemptBatches := acc.attemptBatches ++ [b],
              attemptSteps := acc.attemptSteps ++ [j],
              logs := acc.logs ++ (interruptedState (scoreAt acc.attempts) j).logs }
          exact ⟨t, by simp only [hc, ho, hh, if_true, if_false, if_neg hh, if_neg hc]; rw [ht]⟩
      · exact ⟨[], by simp [hc, ho, mkResult]⟩

/-- C2: after `k` consecutive memory-exhaustion retries the batch size of
the current attempt is `512 / 2 ^ k`, and once this value drops below `1`
(after the tenth such failure) the run stops with the penalty score
`27000` and makes no further attempt. -/
theorem C2_batch_halving (scripts : ℕ → AttemptScript) (scoreAt : ℕ → ℕ → ℝ) :
    (∀ k, k ≤ 9 → (∀ a, a < k → oomRetry (scripts a)) →
      (train scripts scoreAt).attemptBatches[k]? = some ((512 : ℚ) / 2 ^ k)) ∧
    ((∀ a, a ≤ 9 → oomRetry (scripts a)) →
      (train scripts scoreAt).endState = RunEnd.oomPenalty ∧
        (train scripts scoreAt).logs.getLast? = some (27000 : ℝ) ∧
        (train scripts scoreAt).attempts = 10) := by
  constructor
  · intro k hk h
    have hpow : (2 : ℚ) ^ k ≤ 512 := by
      calc (2 : ℚ) ^ k ≤ 2 ^ 9 := by
            apply pow_le_pow_right₀ (by norm_num) hk
        _ ≤ 512 := by norm_num
    obtain ⟨i2, s2, l2, hi2, heq⟩ := outerGo_oomChain scripts scoreAt k 11
      initialBatch none ⟨0, [], [], []⟩ (fun a ha => by simpa using h a ha)
      (fun j hj => nomatch hj) (by norm_num [initialBatch]; exact hpow) (by omega)
    obtain ⟨f2, hf2⟩ : ∃ f, 11 - k = f + 1 := ⟨10 - k, by omega⟩
    have hbk : ¬ initialBatch / 2 ^ k < 1 := by
      rw [not_lt, le_div_iff₀ (by positivity)]
      norm_num [initialBatch]
      exact hpow
    obtain ⟨t, ht⟩ := outerGo_batches_head scripts scoreAt f2 (initialBatch / 2 ^ k) i2
      ⟨0 + k, [] ++ (List.range k).map (fun m => initialBatch / 2 ^ m),
       [] ++ s2, [] ++ l2⟩ hbk
    unfold train
    rw [heq, hf2, ht]
    simp only [List.nil_append]
    rw [List.append_assoc]
    rw [List.getElem?_append_right (by simp)]
    simp [initialBatch]
  · intro h
    obtain ⟨i2, s2, l2, hi2, heq⟩ := outerGo_oomChain scripts scoreAt 9 11
      initialBatch none ⟨0, [], [], []⟩ (fun a ha => by simpa using h a (by omega))
      (fun j hj => nomatch hj) (by norm_num [initialBatch]) (by omega)
    have hb9 : initialBatch / 2 ^ 9 = 1 := by norm_num [initialBatch]
    have h9 : oomRetry (scripts 9) := h 9 le_rfl
    unfold train
    rw [heq, hb9]
    rw [show (11 : ℕ) - 9 = 1 + 1 from rfl]
    have hblive : ¬ (1 : ℚ) < 1 := by norm_num
    have hhalf : (1 : ℚ) / 2 < 1 := by norm_num
    rcases h9 with hsb | ⟨j, hj, hsa⟩
    · rw [outerGo_raisesBefore scripts scoreAt 1 1 i2
        ⟨0 + 9, [] ++ (List.range 9).map (fun m => initialBatch / 2 ^ m),
         [] ++ s2, [] ++ l2⟩ true hblive (by simpa using hsb)]
      cases i2 with
      | none =>
        simp only [if_true, if_pos hhalf]
        refine ⟨rfl, ?_, rfl⟩
        simp only [mkResult, List.nil_append]
        rw [List.getLast?_concat]
        simp [penalty]
      | some jj =>
        have hjj : jj ≤ retryCutoff := hi2 jj rfl
        simp only [if_neg (show ¬ retryCutoff < jj from by omega), if_true, if_pos hhalf]
        refine ⟨rfl, ?_, rfl⟩
        simp only [mkResult, List.nil_append]
        rw [List.getLast?_concat]
        simp [penalty]
    · rw [outerGo_raisesAt scripts scoreAt 1 1 i2
        ⟨0 + 9, [] ++ (List.range 9).map (fun m => initialBatch / 2 ^ m),
         [] ++ s2, [] ++ l2⟩ j true hblive (by simpa using hsa)]
      simp only [if_neg (show ¬ retryCutoff < j from by omega), if_true, if_pos hhalf]
      refine ⟨rfl, ?_, rfl⟩
      simp only [mkResult, List.nil_append]
      rw [List.getLast?_concat]
      simp [penalty]

/-- Witness for C2: every attempt hits a retryable memory failure. -/
theorem C2_witness :
    (train oomEveryTime zScore).attemptBatches[9]? = some ((512 : ℚ) / 2 ^ 9) ∧
      (train oomEveryTime zScore).endState = RunEnd.oomPenalty ∧
      (train oomEveryTime zScore).attempts = 10 :=
  ⟨(C2_batch_halving oomEveryTime zScore).1 9 (by norm_num) (fun a _ => Or.inl rfl),
   ((C2_batch_halving oomEveryTime zScore).2 (fun a _ => Or.inl rfl)).1,
   ((C2_batch_halving oomEveryTime zScore).2 (fun a _ => Or.inl rfl)).2.2⟩

/-- The fuel bound `11` is never the reason the retry loop stops. -/
theorem outerGo_no_fuelOut (scripts : ℕ → AttemptScript) (scoreAt : ℕ → ℕ → ℝ) :
    ∀ (fuel : ℕ) (b : ℚ) (i : Option ℕ) (acc : RunAcc), b < 2 ^ fuel →
      (outerGo scripts scoreAt fuel b i acc).endState ≠ RunEnd.fuelOut := by
  intro fuel
  induction fuel with
  | zero =>
    intro b i acc hb
    rw [pow_zero] at hb
    simp only [outerGo, if_pos hb]
    simp [mkResult]
  | succ fuel ih =>
    intro b i acc hb
    by_cases hlive : b < 1
    · rw [show outerGo scripts scoreAt (fuel + 1) b i acc
          = mkResult acc RunEnd.whileExit from by simp [outerGo, hlive]]
      simp [mkResult]
    · have hb2 : b / 2 < 2 ^ fuel := by
        rw [div_lt_iff₀ (by norm_num)]
        calc b < 2 ^ (fuel + 1) := hb
          _ = 2 ^ fuel * 2 := by ring
      cases hscr : scripts acc.attempts with
      | runs nanAt =>
        rw [outerGo_runs scripts scoreAt fuel b i acc nanAt hlive hscr]
        cases innerGo nanAt (scoreAt acc.attempts) 0 numIters ⟨[], [], 0⟩ with
        | nanAbort s => simp [mkResult]
        | completed s => simp [mkResult]
      | raisesBefore isOOM =>
        rw [outerGo_raisesBefore scripts scoreAt fuel b i acc isOOM hlive hscr]
        cases i with
        | none =>
          by_cases ho : isOOM
          · by_cases hh : b / 2 < 1
            · simp [ho, hh, mkResult]
            · simp only [ho, hh, if_true, if_false, if_neg hh]
              exact ih (b / 2) none _ hb2
          · simp [ho, mkResult]
        | some jj =>
          by_cases hc : retryCutoff < jj
          · simp [hc, mkResult]
          · by_cases ho : isOOM
            · by_cases hh : b / 2 < 1
              · simp [hc, ho, hh, mkResult]
              · simp only [hc, ho, hh, if_true, if_false, if_neg hh, if_neg hc]
                exact ih (b / 2) (some jj) _ hb2
            · simp [hc, ho, mkResult]
      | raisesAt j isOOM =>
        rw [outerGo_raisesAt scripts scoreAt fuel b i acc j isOOM hlive hscr]
        by_cases hc : retryCutoff < j
        · simp [hc, mkResult]
        · by_cases ho : isOOM
          · by_cases hh : b / 2 < 1
            · simp [hc, ho, hh, mkResult]
            · simp only [hc, ho, hh, if_true, if_false, if_neg hh, if_neg hc]
              exact ih (b / 2) (some j) _ hb2
          · simp [hc, ho, mkResult]

/-- With at least one live batch, the invariant `b * 2 ^ attempts ≤ 512`
bounds the attempt counter by `9`. -/
theorem attempts_bound_aux {a : ℕ} {b : ℚ} (hb : 1 ≤ b) (h : b * 2 ^ a ≤ 512) :
    a ≤ 9 := by
  have hpa : (0 : ℚ) < 2 ^ a := by positivity
  have h2 : (2 : ℚ) ^ a ≤ 512 := by nlinarith
  by_contra hc
  push_neg at hc
  have h10 : (2 : ℚ) ^ 10 ≤ 2 ^ a := pow_le_pow_right₀ (by norm_num) (by omega)
  norm_num at h10
  nlinarith

/-- The retry loop makes at most `10` attempts in total. -/
theorem outerGo_attempts_le (scripts : ℕ → AttemptScript) (scoreAt : ℕ → ℕ → ℝ) :
    ∀ (fuel : ℕ) (b : ℚ) (i : Option ℕ) (acc : RunAcc),
      1 ≤ b → b * 2 ^ acc.attempts ≤ 512 →
      (outerGo scripts scoreAt fuel b i acc).attempts ≤ 10 := by
  intro fuel
  induction fuel with
  | zero =>
    intro b i acc hb hinv
    have := attempts_bound_aux hb hinv
    simp only [outerGo]
    split_ifs <;> simp [mkResult] <;> omega
  | succ fuel ih =>
    intro b i acc hb hinv
    have ha9 := attempts_bound_aux hb hinv
    have hlive : ¬ b < 1 := by linarith
    have hnext : ¬ b / 2 < 1 → b / 2 * 2 ^ (acc.attempts + 1) ≤ 512 := by
      intro _
      calc b / 2 * 2 ^ (acc.attempts + 1) = b * 2 ^ acc.attempts := by ring
        _ ≤ 512 := hinv
    cases hscr : scripts acc.attempts with
    | runs nanAt =>
      rw [outerGo_runs scripts scoreAt fuel b i acc nanAt hlive hscr]
      cases innerGo nanAt (scoreAt acc.attempts) 0 numIters ⟨[], [], 0⟩ with
      | nanAbort s => simp [mkResult]; omega
      | completed s => simp [mkResult]; omega
    | raisesBefore isOOM =>
      rw [outerGo_raisesBefore scripts scoreAt fuel b i acc isOOM hlive hscr]
      cases i with
      | none =>
        by_cases ho : isOOM
        · by_cases hh : b / 2 < 1
          · simp [ho, hh, mkResult]; omega
          · simp only [ho, hh, if_true, if_false, if_neg hh]
            exact ih (b / 2) none _ (by linarith) (hnext hh)
        · simp [ho, mkResult]; omega
      | some jj =>
        by_cases hc : retryCutoff < jj
        · simp [hc, mkResult]; omega
        · by_cases ho : isOOM
          · by_cases hh : b / 2 < 1
            · simp [hc, ho, hh, mkResult]; omega
            · simp only [hc, ho, hh, if_true, if_false, if_neg hh, if_neg hc]
              exact ih (b / 2) (some jj) _ (by linarith) (hnext hh)
          · simp [hc, ho, mkResult]; omega
    | raisesAt j isOOM =>
      rw [outerGo_raisesAt scripts scoreAt fuel b i acc j isOOM hlive hscr]
      by_cases hc : retryCutoff < j
      · simp [hc, mkResult]; omega
      · by_cases ho : isOOM
        · by_cases hh : b / 2 < 1
          · simp [hc, ho, hh, mkResult]; omega
          · simp only [hc, ho, hh, if_true, if_false, if_neg hh, if_neg hc]
            exact ih (b / 2) (some j) _ (by linarith) (hnext hh)
        · simp [hc, ho, mkResult]; omega

/-- Every attempt of a well-formed run executes at most `num_iters` steps. -/
theorem outerGo_steps_le (scripts : ℕ → AttemptScript) (scoreAt : ℕ → ℕ → ℝ)
    (hwf : ∀ a j o, scripts a = AttemptScript.raisesAt j o → j ≤ numIters) :
    ∀ (fuel : ℕ) (b : ℚ) (i : Option ℕ) (acc : RunAcc),
      (∀ n ∈ acc.attemptSteps, n ≤ numIters) →
      ∀ n ∈ (outerGo scripts scoreAt fuel b i acc).attemptSteps, n ≤ numIters := by
  intro fuel
  induction fuel with
  | zero =>
    intro b i acc hacc
    simp only [outerGo]
    split_ifs <;> simpa [mkResult] using hacc
  | succ fuel ih =>
    intro b i acc hacc
    by_cases hlive : b < 1
    · rw [show outerGo scripts scoreAt (fuel + 1) b i acc
          = mkResult acc RunEnd.whileExit from by simp [outerGo, hlive]]
      simpa [mkResult] using hacc
    · cases hscr : scripts acc.attempts with
      | runs nanAt =>
        rw [outerGo_runs scripts scoreAt fuel b i acc nanAt hlive hscr]
        have hsteps := innerGo_steps_le nanAt (scoreAt acc.attempts) numIters 0 ⟨[], [], 0⟩
        cases hinner : innerGo nanAt (scoreAt acc.attempts) 0 numIters ⟨[], [], 0⟩ with
        | nanAbort s =>
          rw [hinner] at hsteps
          simp only [stOf] at hsteps
          intro n hn
          simp only [mkResult, List.mem_append, List.mem_singleton] at hn
          rcases hn with hn | rfl
          · exact hacc n hn
          · omega
        | completed s =>
          rw [hinner] at hsteps
          simp only [stOf] at hsteps
          intro n hn
          simp only [mkResult, List.mem_append, List.mem_singleton] at hn
          rcases hn with hn | rfl
          · exact hacc n hn
          · omega
      | raisesBefore isOOM =>
        rw [outerGo_raisesBefore scripts scoreAt fuel b i acc isOOM hlive hscr]
        have haccz : ∀ n ∈ acc.attemptSteps ++ [0], n ≤ numIters := by
          intro n hn
          rcases List.mem_append.mp hn with hn | hn
          · exact hacc n hn
          · simp at hn
            omega
        cases i with
        | none =>
          by_cases ho : isOOM
          · by_cases hh : b / 2 < 1
            · simp only [ho, hh, if_true, if_false, if_pos hh]
              simpa [mkResult] using haccz
            · simp only [ho, hh, if_true, if_false, if_neg hh]
              exact ih (b / 2) none _ haccz
          · simp only [ho, if_false, Bool.false_eq_true]
            simpa [mkResult] using haccz
        | some jj =>
          by_cases hc : retryCutoff < jj
          · simp only [hc, if_true]
            simpa [mkResult] using haccz
          · by_cases ho : isOOM
            · by_cases hh : b / 2 < 1
              · simp only [hc, ho, hh, if_true, if_false, if_pos hh, if_neg hc]
                simpa [mkResult] using haccz
              · simp only [hc, ho, hh, if_true, if_false, if_neg hh, if_neg hc]
                exact ih (b / 2) (some jj) _ haccz
            · simp only [hc, ho, if_false, if_neg hc, Bool.false_eq_true]
              simpa [mkResult] using haccz
      | raisesAt j isOOM =>
        rw [outerGo_raisesAt scripts scoreAt fuel b i acc j isOOM hlive hscr]
        have hj : j ≤ numIters := hwf acc.attempts j isOOM hscr
        have haccj : ∀ n ∈ acc.attemptSteps ++ [j], n ≤ numIters := by
          intro n hn
          rcases List.mem_append.mp hn with hn | hn
          · exact hacc n hn
          · simp at hn
            omega
        by_cases hc : retryCutoff < j
        · simp only [hc, if_true]
          simpa [mkResult] using haccj
        · by_cases ho : isOOM
          · by_cases hh : b / 2 < 1
            · simp only [hc, ho, hh, if_true, if_false, if_pos hh, if_neg hc]
              simpa [mkResult] using haccj
            · simp only [hc, ho, hh, if_true, if_false, if_neg hh, if_neg hc]
              exact ih (b / 2) (some j) _ haccj
          · simp only [hc, ho, if_false, if_neg hc, Bool.false_eq_true]
            simpa [mkResult] using haccj

/-- C5 (amended): for every well-formed environment `train` terminates,
each attempt runs at most `num_iters = 20000` steps, and the number of
attempts is bounded by `log2(512) + 1 = 10` (nine retries after the
initial attempt). -/
theorem C5_attempt_bounds (scripts : ℕ → AttemptScript) (scoreAt : ℕ → ℕ → ℝ)
    (hwf : ∀ a j o, scripts a = AttemptScript.raisesAt j o → j ≤ numIters) :
    (train scripts scoreAt).endState ≠ RunEnd.fuelOut ∧
      (train scripts scoreAt).attempts ≤ 10 ∧
      ∀ n ∈ (train scripts scoreAt).attemptSteps, n ≤ numIters := by
  refine ⟨?_, ?_, ?_⟩
  · exact outerGo_no_fuelOut scripts scoreAt 11 initialBatch none ⟨0, [], [], []⟩
      (by norm_num [initialBatch])
  · exact outerGo_attempts_le scripts scoreAt 11 initialBatch none ⟨0, [], [], []⟩
      (by norm_num [initialBatch]) (by norm_num [initialBatch])
  · exact outerGo_steps_le scripts scoreAt hwf 11 initialBatch none ⟨0, [], [], []⟩
      (by simp)

/-- Witness for C5 (amended): the all-out-of-memory environment. -/
theorem C5_witness :
    (train oomEveryTime zScore).endState ≠ RunEnd.fuelOut ∧
      (train oomEveryTime zScore).attempts ≤ 10 :=
  ⟨(C5_attempt_bounds oomEveryTime zScore
      (fun _ j o h => AttemptScript.noConfusion h)).1,
   (C5_attempt_bounds oomEveryTime zScore
      (fun _ j o h => AttemptScript.noConfusion h)).2.1⟩

/-- Counterexample to C5 as stated: when every attempt hits a retryable
memory failure the retry loop makes `10` attempts, exceeding the claimed
bound `log2(512) = 9`. -/
theorem C5_counterexample :
    (train oomEveryTime zScore).attempts = 10 ∧
      ¬ (train oomEveryTime zScore).attempts ≤ 9 := by
  obtain ⟨i2, s2, l2, hi2, heq⟩ := outerGo_oomChain oomEveryTime zScore 9 11
    initialBatch none ⟨0, [], [], []⟩ (fun a _ => Or.inl rfl)
    (fun j hj => nomatch hj) (by norm_num [initialBatch]) (by omega)
  have hb9 : initialBatch / 2 ^ 9 = 1 := by norm_num [initialBatch]
  have hatt : (train oomEveryTime zScore).attempts = 10 := by
    unfold train
    rw [heq, hb9]
    rw [show (11 : ℕ) - 9 = 1 + 1 from rfl]
    rw [outerGo_raisesBefore oomEveryTime zScore 1 1 i2
      ⟨0 + 9, [] ++ (List.range 9).map (fun m => initialBatch / 2 ^ m),
       [] ++ s2, [] ++ l2⟩ true (by norm_num) rfl]
    cases i2 with
    | none =>
      simp only [if_true, if_pos (show (1 : ℚ) / 2 < 1 from by norm_num)]
      simp [mkResult]
    | some jj =>
      have hjj : jj ≤ retryCutoff := hi2 jj rfl
      simp only [if_neg (show ¬ retryCutoff < jj from by omega), if_true,
        if_pos (show (1 : ℚ) / 2 < 1 from by norm_num)]
      simp [mkResult]
  exact ⟨hatt, by omega⟩

/-! ## Lemmas: the event trace -/

/-- Every quantitative-probe step is also a qualitative-probe step. -/
theorem quantB_qualB {i : ℕ} (h : quantB i = true) : qualB i = true := by
  simp only [quantB, qualB, numIters, Bool.or_eq_true, beq_iff_eq] at h ⊢
  norm_num at h ⊢
  omega

/-- The last event of a step is its NaN check, or the abort it triggers. -/
theorem stepEvents_getLast (i : ℕ) (nan : Bool) :
    (stepEvents i nan).getLast?
      = some (if nan then Ev.nanExit i (stepMode i) else Ev.nanCheck i (stepMode i)) := by
  unfold stepEvents
  by_cases h1 : qualB i <;> by_cases h2 : quantB i <;> by_cases h3 : numIters / 2 ≤ i <;>
    cases nan <;> simp [h1, h2, h3, List.getLast?_append, List.getLast?_concat]

/-- Within one step, whatever directly follows a probe still runs in eval
mode: the qualitative probe switches the model to eval and nothing in the
same step switches it back. -/
theorem stepEvents_chain (i : ℕ) (nan : Bool) :
    List.Chain' (fun a b => restoredTo Mode.eval a b = true) (stepEvents i nan) := by
  by_cases h1 : qualB i
  · by_cases h2 : quantB i
    · by_cases h3 : numIters / 2 ≤ i
      · cases nan <;>
          simp [stepEvents, stepMode, h1, h2, h3, List.chain'_cons, restoredTo, isProbe,
            evMode, List.chain'_singleton]
      · cases nan <;>
          simp [stepEvents, stepMode, h1, h2, h3, List.chain'_cons, restoredTo, isProbe,
            evMode, List.chain'_singleton]
    · cases nan <;>
        simp [stepEvents, stepMode, h1, h2, List.chain'_cons, restoredTo, isProbe,
          evMode, List.chain'_singleton]
  · have h2 : quantB i = false := by
      cases hq : quantB i
      · rfl
      · exact absurd (quantB_qualB hq) (by simp [h1])
    cases nan <;>
      simp [stepEvents, stepMode, h1, h2, List.chain'_cons, restoredTo, isProbe,
        evMode, List.chain'_singleton]

/-- Both probes of a step run under `no_grad`. -/
theorem stepEvents_noGrad (i : ℕ) (nan : Bool) :
    ∀ e ∈ stepEvents i nan, probeNoGrad e = true := by
  intro e he
  unfold stepEvents at he
  by_cases h1 : qualB i <;> by_cases h2 : quantB i <;> by_cases h3 : numIters / 2 ≤ i <;>
    cases nan <;> simp [h1, h2, h3] at he <;>
    rcases he with rfl | rfl | rfl | rfl | rfl | rfl | rfl | rfl <;> rfl

/-- No probe in the whole trace escapes `no_grad`. -/
theorem traceGo_noGrad (nanAt : ℕ → Bool) :
    ∀ (fuel start : ℕ), ∀ e ∈ traceGo nanAt start fuel, probeNoGrad e = true := by
  intro fuel
  induction fuel with
  | zero => intro start e he; simp [traceGo] at he
  | succ fuel ih =>
    intro start e he
    simp only [traceGo] at he
    rcases List.mem_append.mp he with h | h
    · exact stepEvents_noGrad start (nanAt start) e h
    · by_cases hn : nanAt start
      · simp [hn] at h
      · rw [if_neg hn] at h
        exact ih (start + 1) e h

/-- Across the whole trace, the event directly after a probe runs in eval
mode. -/
theorem traceGo_chain (nanAt : ℕ → Bool) :
    ∀ (fuel start : ℕ),
      List.Chain' (fun a b => restoredTo Mode.eval a b = true)
        (traceGo nanAt start fuel) := by
  intro fuel
  induction fuel with
  | zero => intro start; simp [traceGo]
  | succ fuel ih =>
    intro start
    simp only [traceGo]
    apply List.Chain'.append (stepEvents_chain start (nanAt start))
    · by_cases hn : nanAt start
      · simp [hn]
      · rw [if_neg hn]
        exact ih (start + 1)
    · intro x hx y hy
      rw [stepEvents_getLast] at hx
      simp only [Option.mem_def, Option.some.injEq] at hx
      subst hx
      cases h : nanAt start <;> simp [h, restoredTo, isProbe]

/-- C6 (amended): both probes run under no-gradient mode, but the model is
not restored to training mode when a probe completes: whatever executes
next within the same step (quantitative probe, score append, NaN check)
still runs in eval mode; training mode only returns with the
`vae.train()` call at the top of the next step. -/
theorem C6_probe_modes (nanAt : ℕ → Bool) :
    (∀ e ∈ attemptTrace nanAt, probeNoGrad e = true) ∧
      List.Chain' (fun a b => restoredTo Mode.eval a b = true) (attemptTrace nanAt) :=
  ⟨traceGo_noGrad nanAt numIters 0, traceGo_chain nanAt numIters 0⟩

/-- Witness for C6 (amended): the qualitative probe of step `0` in the
run aborting at step `0`. -/
theorem C6_witness :
    probeNoGrad (Ev.qualProbe 0 Mode.eval true) = true ∧
      List.Chain' (fun a b => restoredTo Mode.eval a b = true)
        (attemptTrace nanAtZero) :=
  ⟨(C6_probe_modes nanAtZero).1 (Ev.qualProbe 0 Mode.eval true) (by decide),
   (C6_probe_modes nanAtZero).2⟩

/-- The executable chain check agrees with `List.Chain'`. -/
theorem chainOK_iff (m : Mode) :
    ∀ l : List Ev,
      chainOK m l = true ↔ List.Chain' (fun a b => restoredTo m a b = true) l := by
  intro l
  induction l with
  | nil => simp [chainOK]
  | cons a l ih =>
    cases l with
    | nil => simp [chainOK]
    | cons b rest =>
      rw [List.chain'_cons, ← ih]
      simp [chainOK, Bool.and_eq_true]

/-- Counterexample to C6 as stated: in the run aborting at step `0` the
quantitative probe follows the qualitative probe with the model still in
eval mode, so it is false that after each probe the model has been
restored to training mode before execution continues. -/
theorem C6_counterexample :
    ¬ ((∀ e ∈ attemptTrace nanAtZero, probeNoGrad e = true) ∧
      List.Chain' (fun a b => restoredTo Mode.train a b = true)
        (attemptTrace nanAtZero)) := by
  intro h
  have hc := (chainOK_iff Mode.train (attemptTrace nanAtZero)).mpr h.2
  rw [show chainOK Mode.train (attemptTrace nanAtZero) = false from by decide] at hc
  exact Bool.false_ne_true hc

/-- When the first NaN is at step `j`, the trace is the clean steps before
`j` followed by step `j`'s events. -/
theorem traceGo_nan_split (nanAt : ℕ → Bool) :
    ∀ (fuel start j : ℕ), start ≤ j → j < start + fuel → nanAt j = true →
      (∀ m, start ≤ m → m < j → nanAt m = false) →
      ∃ pre, traceGo nanAt start fuel = pre ++ stepEvents j true := by
  intro fuel
  induction fuel with
  | zero => intro start j h1 h2; omega
  | succ fuel ih =>
    intro start j h1 h2 hj hfirst
    rcases Nat.eq_or_lt_of_le h1 with rfl | hlt
    · refine ⟨[], ?_⟩
      simp only [traceGo, hj, if_true, List.append_nil, List.nil_append]
    · have hs : nanAt start = false := hfirst start le_rfl hlt
      obtain ⟨pre, hpre⟩ := ih (start + 1) j hlt (by omega) hj
        (fun m hm1 hm2 => hfirst m (by omega) hm2)
      refine ⟨stepEvents start false ++ pre, ?_⟩
      simp only [traceGo, hs, if_false, Bool.false_eq_true]
      rw [hpre, List.append_assoc]

/-- C10: the NaN check is the last action of a training step.  On the step
whose loss is NaN, the trace ends with that step's events, whose last
event is the abort right after the NaN check; the optimizer update, the
telemetry log, both probes when scheduled, and the conditional score
append all appear among that step's events before the abort. -/
theorem C10_nan_check_last (nanAt : ℕ → Bool) (j : ℕ)
    (hj : j < numIters) (hnan : nanAt j = true)
    (hfirst : ∀ m, m < j → nanAt m = false) :
    (∃ pre, attemptTrace nanAt = pre ++ stepEvents j true) ∧
      (stepEvents j true).getLast? = some (Ev.nanExit j (stepMode j)) ∧
      Ev.optimStep j Mode.train ∈ stepEvents j true ∧
      Ev.telemetry j Mode.train ∈ stepEvents j true ∧
      (qualB j = true → Ev.qualProbe j Mode.eval true ∈ stepEvents j true) ∧
      (quantB j = true → Ev.quantProbe j (stepMode j) true ∈ stepEvents j true) ∧
      (quantB j = true → numIters / 2 ≤ j →
        Ev.appendScore j (stepMode j) ∈ stepEvents j true) := by
  refine ⟨traceGo_nan_split nanAt numIters 0 j (Nat.zero_le j) (by omega) hnan
      (fun m _ hm2 => hfirst m hm2), ?_, ?_, ?_, ?_, ?_, ?_⟩
  · rw [stepEvents_getLast]
    simp
  · unfold stepEvents
    simp
  · unfold stepEvents
    simp
  · intro h
    unfold stepEvents
    simp [h]
  · intro h
    unfold stepEvents
    simp [h]
  · intro h hh
    unfold stepEvents
    simp [h, hh]

/-- Witness for C10: a NaN at step `0`. -/
theorem C10_witness :
    (∃ pre, attemptTrace nanAtZero = pre ++ stepEvents 0 true) ∧
      (stepEvents 0 true).getLast? = some (Ev.nanExit 0 (stepMode 0)) :=
  ⟨(C10_nan_check_last nanAtZero 0 (by norm_num [numIters]) rfl
      (fun m hm => absurd hm (Nat.not_lt_zero m))).1,
   (C10_nan_check_last nanAtZero 0 (by norm_num [numIters]) rfl
      (fun m hm => absurd hm (Nat.not_lt_zero m))).2.1⟩

end MauaVAE
